import Mathlib

/-!
Verification of the multilayer-perceptron training code
(`multilayer-perceptrons.ipynb`): a shallow embedding of the `Model`
class, `relu`, `predict`, `frob_squared` and the body of one inner
training iteration of `train`, over matrices represented as lists of
rows of rationals, together with theorems settling the specification
claims about forward propagation, the objective, backpropagation and
the optimizer step.
-/

namespace MLP

/-- A dense 2-D array: a list of rows. -/
abbrev Mat := List (List ℚ)

/-- Entry `(i, j)` of a matrix, `0` out of bounds. -/
def entry (A : Mat) (i j : ℕ) : ℚ := (A.getD i []).getD j 0

/-- `A` has `m` rows, each of length `n`. -/
def isRect (A : Mat) (m n : ℕ) : Prop :=
  A.length = m ∧ ∀ r ∈ A, r.length = n

instance (A : Mat) (m n : ℕ) : Decidable (isRect A m n) := by
  unfold isRect; infer_instance

/-- Column `j` of `A` as a list (rows shorter than `j+1` contribute `0`). -/
def col (A : Mat) (j : ℕ) : List ℚ := A.map (fun r => r.getD j 0)

/-- `np.transpose`: rows of the result are the columns of `A`
(for a rectangular `A`, whose column count is its first row's length). -/
def transpose (A : Mat) : Mat :=
  (List.range (A.headD []).length).map (fun j => col A j)

/-- Dot product of two numeric vectors (`np.dot` on 1-D arrays). -/
def dot (v w : List ℚ) : ℚ := (List.zipWith (· * ·) v w).sum

/-- `np.matmul` on 2-D arrays: entry `(i, j)` is the dot product of
row `i` of `A` with column `j` of `B`. -/
def matmul (A B : Mat) : Mat :=
  A.map (fun r => (List.range (B.headD []).length).map (fun j => dot r (col B j)))

/-- Elementwise sum of two matrices (`+` on same-shape arrays). -/
def matadd (A B : Mat) : Mat := List.zipWith (List.zipWith (· + ·)) A B

/-- Elementwise difference of two matrices (`-` on same-shape arrays). -/
def matsub (A B : Mat) : Mat := List.zipWith (List.zipWith (· - ·)) A B

/-- Elementwise (Hadamard) product (`np.multiply`). -/
def hadamard (A B : Mat) : Mat := List.zipWith (List.zipWith (· * ·)) A B

/-- Multiplication of every entry by a scalar. -/
def smul (c : ℚ) (A : Mat) : Mat := A.map (List.map (fun x => c * x))

/-- `np.tile(b, (m, 1))` for a one-row matrix `b`: the row repeated `m`
times, broadcasting a bias row to every sample. -/
def tile (b : Mat) (m : ℕ) : Mat := List.replicate m (b.headD [])

/-- `np.trace`: the sum of the diagonal entries that exist. -/
def trace (A : Mat) : ℚ := ((List.range A.length).map (fun i => entry A i i)).sum

/-- `np.sum(A, axis=0)`: the column-wise sums, as a vector. -/
def colSum (A : Mat) : List ℚ :=
  (List.range (A.headD []).length).map (fun j => (col A j).sum)

/-- `relu(A) = np.maximum(A, zeros)`: elementwise `max` with `0`. -/
def relu (A : Mat) : Mat := A.map (List.map (fun x => max x 0))

/-- The array transform `a_primes[a_primes > 0] = 1.0` from `train`:
every entry strictly greater than `0` becomes `1`; every other entry is
left as it is. -/
def aPrimes (A : Mat) : Mat := A.map (List.map (fun x => if 0 < x then 1 else x))

/-- `frob_squared(A) = np.trace(np.matmul(np.transpose(A), A))`. -/
def frob_squared (A : Mat) : ℚ := trace (matmul (transpose A) A)

/-- The sum of the squares of all entries of a matrix. -/
def sumSqEntries (A : Mat) : ℚ := (A.map (fun r => (r.map (fun x => x * x)).sum)).sum

/-- The `Model` class: layer sizes plus one weight matrix and one bias
row per layer transition (the random initial values are irrelevant to
the claims, so weights and biases are arbitrary fields). -/
structure Model where
  layers : List ℕ
  weights : List Mat
  biases : List Mat

/-- Shapes produced by `Model.__init__`: `len(layers) - 1` weight
matrices of shape `(layers[i], layers[i+1])` and as many bias rows of
shape `(1, layers[i+1])`. -/
def Model.WF (m : Model) : Prop :=
  m.weights.length = m.layers.length - 1 ∧
  m.biases.length = m.layers.length - 1 ∧
  (∀ i < m.layers.length - 1,
    isRect (m.weights.getD i []) (m.layers.getD i 0) (m.layers.getD (i+1) 0)) ∧
  (∀ i < m.layers.length - 1,
    isRect (m.biases.getD i []) 1 (m.layers.getD (i+1) 0))

instance (m : Model) : Decidable m.WF := by
  unfold Model.WF; infer_instance

/-- The body of one iteration of the loop in `predict`:
`last_predicted @ weights[i] + tile(biases[i])`, activated with `relu`
except when `i` is the final transition `len(layers) - 2`. -/
def predictStep (m : Model) (i : ℕ) (last : Mat) : Mat :=
  let pre := matadd (matmul last (m.weights.getD i [])) (tile (m.biases.getD i []) last.length)
  if i ≠ m.layers.length - 2 then relu pre else pre

/-- The chain of values taken by `last_predicted` in `predict`:
`poChain m input 0` is the input batch, `poChain m input (i+1)` the
value after iteration `i`. -/
def poChain (m : Model) (input : Mat) : ℕ → Mat
  | 0 => input
  | i + 1 => predictStep m i (poChain m input i)

/-- `predict(input, save_activated)`: the loop over
`range(len(layers) - 1)`, returning the final `last_predicted`
together with the list appended to `save_activated`. -/
def predictPair (m : Model) (input : Mat) : Mat × List Mat :=
  (List.range (m.layers.length - 1)).foldl
    (fun st i =>
      let np := predictStep m i st.1
      (np, st.2 ++ [np]))
    (input, [])

/-- The return value of `predict`. -/
def predictOut (m : Model) (input : Mat) : Mat := (predictPair m input).1

/-- The `activated` list built by `predict` when a cache is supplied. -/
def activatedOf (m : Model) (input : Mat) : List Mat := (predictPair m input).2

/-- `errors = y_hat - outputs` in `train`. -/
def errorsOf (m : Model) (inputs outputs : Mat) : Mat :=
  matsub (predictOut m inputs) outputs

/-- `loss = 1/2*(np.dot(errors[:,0], errors[:,0])**2)` in `train`: half
the square of the dot product of error column `0` with itself. -/
def lossOf (m : Model) (inputs outputs : Mat) : ℚ :=
  1/2 * (dot (col (errorsOf m inputs outputs) 0) (col (errorsOf m inputs outputs) 0))^2

/-- `s`: the sum of `frob_squared` over all weight matrices. -/
def sOf (m : Model) : ℚ := (m.weights.map frob_squared).sum

/-- The loss part `1/num_samples*loss` of the objective in `train`. -/
def lossTermOf (m : Model) (inputs outputs : Mat) : ℚ :=
  1/(inputs.length : ℚ) * lossOf m inputs outputs

/-- `objective = 1/num_samples*loss + l/2*s` in `train` (`l` is the
weight-decay coefficient). -/
def objectiveOf (m : Model) (inputs outputs : Mat) (l : ℚ) : ℚ :=
  lossTermOf m inputs outputs + l/2 * sOf m

/-- The `z_primes` list after the backward loop in `train`: starting
from a copy of `activated` with the last entry replaced by `errors`,
each iteration `j` of `range(len(layers) - 2)` writes at index
`len(activated) - 2 - j` the product of the next boundary's signal with
the transposed weight matrix, elementwise-multiplied by the `a_primes`
transform of the cached activation at that boundary. -/
def zPrimesOf (m : Model) (inputs outputs : Mat) : List Mat :=
  let activated := activatedOf m inputs
  let z0 := activated.set (activated.length - 1) (errorsOf m inputs outputs)
  (List.range (m.layers.length - 2)).foldl
    (fun zp j =>
      let aP := aPrimes (activated.getD (m.layers.length - 3 - j) [])
      let prev := hadamard
        (matmul (zp.getD (activated.length - 1 - j) [])
                (transpose (m.weights.getD (m.layers.length - 2 - j) [])))
        aP
      zp.set (activated.length - 2 - j) prev)
    z0

/-- The `deltas` list in `train`: a copy of the weight list whose entry
`0` is overwritten with `inputs^T @ z_primes[0]` and whose entries
`j+1` for `j` in `range(len(layers) - 3)` are overwritten with
`activated[j]^T @ z_primes[j+1]`. -/
def deltasOf (m : Model) (inputs outputs : Mat) : List Mat :=
  let activated := activatedOf m inputs
  let zp := zPrimesOf m inputs outputs
  let d0 := m.weights.set 0 (matmul (transpose inputs) (zp.getD 0 []))
  (List.range (m.layers.length - 3)).foldl
    (fun d j => d.set (j+1) (matmul (transpose (activated.getD j [])) (zp.getD (j+1) [])))
    d0

/-- The update loop of `train` over `range(len(weights) - 1)`: each
visited weight matrix becomes
`w - lr*(1/num_samples*deltas[j] + l*w)` and each visited bias row
becomes `b - lr/num_samples*np.sum(z_primes[j], axis=0)`; the result is
the pair (new weight list, new bias list). -/
def updatePair (m : Model) (inputs outputs : Mat) (lr l : ℚ) : List Mat × List Mat :=
  let N : ℚ := (inputs.length : ℚ)
  let d := deltasOf m inputs outputs
  let zp := zPrimesOf m inputs outputs
  (List.range (m.weights.length - 1)).foldl
    (fun wb j =>
      (wb.1.set j (matsub (wb.1.getD j [])
         (smul lr (matadd (smul (1/N) (d.getD j [])) (smul l (wb.1.getD j []))))),
       wb.2.set j (matsub (wb.2.getD j [])
         [(colSum (zp.getD j [])).map (fun x => lr/N * x)])))
    (m.weights, m.biases)

/-- The weight list after one inner training iteration. -/
def updatedWeights (m : Model) (inputs outputs : Mat) (lr l : ℚ) : List Mat :=
  (updatePair m inputs outputs lr l).1

/-- The bias list after one inner training iteration. -/
def updatedBiases (m : Model) (inputs outputs : Mat) (lr l : ℚ) : List Mat :=
  (updatePair m inputs outputs lr l).2

/-- The mathematical derivative of ReLU, applied elementwise: `1` on
strictly positive entries, `0` everywhere else (including at `0`). -/
def reluDeriv (A : Mat) : Mat := A.map (List.map (fun x => if 0 < x then 1 else 0))

/-! ### List lemmas -/

theorem getD_set_eq {α : Type} (l : List α) (i : ℕ) (a d : α) (h : i < l.length) :
    (l.set i a).getD i d = a := by
  rw [List.getD_eq_getElem?_getD, List.getElem?_set_self h]
  rfl

theorem getD_set_ne {α : Type} (l : List α) (i : ℕ) {k : ℕ} (a : α) (d : α) (h : k ≠ i) :
    (l.set i a).getD k d = l.getD k d := by
  rw [List.getD_eq_getElem?_getD, List.getElem?_set_ne (fun he => h he.symm),
    ← List.getD_eq_getElem?_getD]

theorem getD_map_range {α : Type} (f : ℕ → α) {n i : ℕ} (d : α) (h : i < n) :
    ((List.range n).map f).getD i d = f i := by
  rw [List.getD_eq_getElem?_getD, List.getElem?_map, List.getElem?_range h]
  rfl

/-- Folding writes (`List.set`) over any index list never changes the
length of the accumulator. -/
theorem foldl_set_length {α ι : Type} (st : List α → ι → List α)
    (hst : ∀ acc j, (st acc j).length = acc.length) :
    ∀ (L : List ι) (x0 : List α), (L.foldl st x0).length = x0.length := by
  intro L
  induction L with
  | nil => intro x0; rfl
  | cons x xs ih => intro x0; rw [List.foldl_cons, ih, hst]

/-- Splitting a fold whose two product components do not interact. -/
theorem foldl_pair {α β ι : Type} (s : α → ι → α) (t : β → ι → β) :
    ∀ (L : List ι) (a : α) (b : β),
      L.foldl (fun p i => (s p.1 i, t p.2 i)) (a, b) = (L.foldl s a, L.foldl t b) := by
  intro L
  induction L with
  | nil => intro a b; rfl
  | cons x xs ih => intro a b; exact ih (s a x) (t b x)

/-- A fold over `range n` that writes index `j + 1` at iteration `j`
with a value independent of the accumulator: index `k` holds `v (k-1)`
when `1 ≤ k ≤ n` and the write was in range, the start value
otherwise. -/
theorem foldl_set_succ_getD {α : Type} (v : ℕ → α) (d : α)
    (st : List α → ℕ → List α) (hst : ∀ acc j, st acc j = acc.set (j+1) (v j)) :
    ∀ (n : ℕ) (x0 : List α) (k : ℕ),
      ((List.range n).foldl st x0).getD k d
        = if 1 ≤ k ∧ k ≤ n ∧ k < x0.length then v (k-1) else x0.getD k d := by
  intro n
  induction n with
  | zero =>
    intro x0 k
    rw [if_neg (by omega)]
    rfl
  | succ n ih =>
    intro x0 k
    have hlen : ((List.range n).foldl st x0).length = x0.length :=
      foldl_set_length st (fun acc j => by rw [hst, List.length_set]) _ x0
    rw [List.range_succ, List.foldl_append, List.foldl_cons, List.foldl_nil, hst]
    by_cases hk : k = n + 1
    · subst hk
      by_cases hin : n + 1 < x0.length
      · rw [getD_set_eq _ _ _ _ (by rw [hlen]; exact hin), if_pos (by omega)]
        simp
      · rw [List.set_eq_of_length_le (by rw [hlen]; omega), ih, if_neg (by omega),
          if_neg (by omega)]
    · rw [getD_set_ne _ _ _ _ hk, ih]
      by_cases hin : 1 ≤ k ∧ k ≤ n ∧ k < x0.length
      · rw [if_pos hin, if_pos (by omega)]
      · rw [if_neg hin, if_neg (by omega)]

/-- A fold over `range n` that writes index `j` at iteration `j` with a
value computed from the accumulator's current entry `j`: index `k`
holds `g k` of the original entry when `k < n` and the write was in
range, the start value otherwise. -/
theorem foldl_set_self_getD {α : Type} (g : ℕ → α → α) (d : α)
    (st : List α → ℕ → List α) (hst : ∀ acc j, st acc j = acc.set j (g j (acc.getD j d))) :
    ∀ (n : ℕ) (x0 : List α) (k : ℕ),
      ((List.range n).foldl st x0).getD k d
        = if k < n ∧ k < x0.length then g k (x0.getD k d) else x0.getD k d := by
  intro n
  induction n with
  | zero =>
    intro x0 k
    rw [if_neg (by omega)]
    rfl
  | succ n ih =>
    intro x0 k
    have hlen : ((List.range n).foldl st x0).length = x0.length :=
      foldl_set_length st (fun acc j => by rw [hst, List.length_set]) _ x0
    rw [List.range_succ, List.foldl_append, List.foldl_cons, List.foldl_nil, hst]
    have hcur : ((List.range n).foldl st x0).getD n d = x0.getD n d := by
      rw [ih, if_neg (by omega)]
    by_cases hk : k = n
    · subst hk
      by_cases hin : k < x0.length
      · rw [hcur, getD_set_eq _ _ _ _ (by rw [hlen]; exact hin), if_pos (by omega)]
      · rw [List.set_eq_of_length_le (by rw [hlen]; omega), ih, if_neg (by omega),
          if_neg (by omega)]
    · rw [getD_set_ne _ _ _ _ hk, ih]
      by_cases hin : k < n ∧ k < x0.length
      · rw [if_pos hin, if_pos (by omega)]
      · rw [if_neg hin, if_neg (by omega)]

/-! ### The forward pass, unrolled -/

/-- The fold in `predict` computes the chain `poChain` and records the
successive values of `last_predicted` in order. -/
theorem predictFold_eq (m : Model) (input : Mat) :
    ∀ n, (List.range n).foldl
        (fun st i =>
          let np := predictStep m i st.1
          (np, st.2 ++ [np]))
        (input, [])
      = (poChain m input n, (List.range n).map (fun i => poChain m input (i+1))) := by
  intro n
  induction n with
  | zero => rfl
  | succ n ih =>
    simp only [List.range_succ, List.foldl_append, List.map_append, ih,
      List.foldl_cons, List.foldl_nil]
    rfl

/-- The value returned by `predict` is the end of the chain. -/
theorem predictOut_eq_poChain (m : Model) (input : Mat) :
    predictOut m input = poChain m input (m.layers.length - 1) := by
  rw [predictOut, predictPair, predictFold_eq]

/-- The activation cache is the list of chain values after each
transition, in order. -/
theorem activatedOf_eq (m : Model) (input : Mat) :
    activatedOf m input
      = (List.range (m.layers.length - 1)).map (fun i => poChain m input (i+1)) := by
  rw [activatedOf, predictPair, predictFold_eq]

/-- `predict` appends exactly one matrix per layer transition. -/
theorem activatedOf_length (m : Model) (input : Mat) :
    (activatedOf m input).length = m.layers.length - 1 := by
  rw [activatedOf_eq, List.length_map, List.length_range]

/-- Entry `i` of the activation cache is the output of transition `i`. -/
theorem activatedOf_getD (m : Model) (input : Mat) {i : ℕ} (h : i < m.layers.length - 1) :
    (activatedOf m input).getD i [] = poChain m input (i+1) := by
  rw [activatedOf_eq, getD_map_range _ _ h]

/-! ### Shape lemmas -/

theorem isRect_relu {A : Mat} {p q : ℕ} (h : isRect A p q) : isRect (relu A) p q := by
  obtain ⟨hl, hr⟩ := h
  refine ⟨by simp [relu, hl], ?_⟩
  intro r hr'
  obtain ⟨r0, hr0, rfl⟩ := List.mem_map.mp hr'
  simpa using hr r0 hr0

/-- Elementwise combination of two rectangular matrices of the same
shape is rectangular of that shape. -/
theorem isRect_zipWith (f : ℚ → ℚ → ℚ) :
    ∀ (A B : Mat) (p q : ℕ), isRect A p q → isRect B p q →
      isRect (List.zipWith (List.zipWith f) A B) p q := by
  intro A
  induction A with
  | nil =>
    intro B p q hA _
    exact ⟨by simpa using hA.1, by intro r hr; simp at hr⟩
  | cons a A' ih =>
    intro B p q hA hB
    cases B with
    | nil =>
      exfalso
      have h1 := hA.1
      have h2 := hB.1
      simp at h1 h2
      omega
    | cons b B' =>
      obtain ⟨hAl, hAr⟩ := hA
      obtain ⟨hBl, hBr⟩ := hB
      simp only [List.length_cons] at hAl hBl
      have hrec := ih B' A'.length q
        ⟨rfl, fun r hr => hAr r (List.mem_cons_of_mem _ hr)⟩
        ⟨by omega, fun r hr => hBr r (List.mem_cons_of_mem _ hr)⟩
      rw [List.zipWith_cons_cons]
      have hmin : A'.length ⊓ B'.length = A'.length := min_eq_left (by omega)
      refine ⟨by simp only [List.length_cons, List.length_zipWith, hmin]; omega, ?_⟩
      intro r hr
      rcases List.mem_cons.mp hr with h | h
      · rw [h, List.length_zipWith, hAr a (List.mem_cons_self _ _),
          hBr b (List.mem_cons_self _ _)]
        omega
      · exact hrec.2 r h

theorem isRect_matadd {A B : Mat} {p q : ℕ} (hA : isRect A p q) (hB : isRect B p q) :
    isRect (matadd A B) p q :=
  isRect_zipWith _ A B p q hA hB

theorem isRect_tile {b : Mat} {q : ℕ} (hb : isRect b 1 q) (p : ℕ) :
    isRect (tile b p) p q := by
  obtain ⟨hl, hr⟩ := hb
  refine ⟨by simp [tile], ?_⟩
  intro r hrm
  rw [tile] at hrm
  rw [List.eq_of_mem_replicate hrm]
  cases b with
  | nil => simp at hl
  | cons r0 rest => exact hr r0 (List.mem_cons_self _ _)

theorem isRect_matmul {A B : Mat} {p q n : ℕ} (hA : isRect A p q) (hB : isRect B q n)
    (hq : 0 < q) : isRect (matmul A B) p n := by
  obtain ⟨hAl, _⟩ := hA
  obtain ⟨hBl, hBr⟩ := hB
  have hhead : (B.headD []).length = n := by
    cases B with
    | nil => simp at hBl; omega
    | cons r0 rest => exact hBr r0 (List.mem_cons_self _ _)
  refine ⟨by simp [matmul, hAl], ?_⟩
  intro r hrm
  rw [matmul] at hrm
  obtain ⟨r0, _, rfl⟩ := List.mem_map.mp hrm
  simpa using hhead

/-- Shapes along the forward chain: starting from a batch of `N`
samples of dimension `layers[0]`, each chain value is a
`(N, layers[i])` matrix. -/
theorem poChain_isRect (m : Model) (input : Mat) (N : ℕ)
    (hWF : m.WF) (hpos : ∀ i < m.layers.length, 0 < m.layers.getD i 0)
    (hin : isRect input N (m.layers.getD 0 0)) :
    ∀ i, i ≤ m.layers.length - 1 → isRect (poChain m input i) N (m.layers.getD i 0) := by
  intro i
  induction i with
  | zero => intro _; exact hin
  | succ i ih =>
    intro hi
    have hrec := ih (by omega)
    obtain ⟨hWl, hBl, hWr, hBr⟩ := hWF
    have hiL : i < m.layers.length - 1 := by omega
    have hw := hWr i hiL
    have hb := hBr i hiL
    have hpre : isRect
        (matadd (matmul (poChain m input i) (m.weights.getD i []))
          (tile (m.biases.getD i []) (poChain m input i).length))
        N (m.layers.getD (i+1) 0) := by
      have hmm := isRect_matmul hrec hw (hpos i (by omega))
      have hlen : (poChain m input i).length = N := hrec.1
      rw [hlen]
      exact isRect_matadd hmm (isRect_tile hb N)
    show isRect (predictStep m i (poChain m input i)) N (m.layers.getD (i+1) 0)
    rw [predictStep]
    by_cases hfin : i ≠ m.layers.length - 2
    · rw [if_pos hfin]
      exact isRect_relu hpre
    · rw [if_neg hfin]
      exact hpre

/-- On a matrix whose entries are outputs of `relu` (hence all
non-negative), the in-place transform `a_primes[a_primes > 0] = 1.0`
coincides with the mathematical ReLU derivative. -/
theorem aPrimes_relu (M : Mat) : aPrimes (relu M) = reluDeriv (relu M) := by
  simp only [aPrimes, relu, reluDeriv, List.map_map]
  apply List.map_congr_left
  intro r _
  simp only [Function.comp, List.map_map]
  apply List.map_congr_left
  intro x _
  simp only [Function.comp]
  by_cases h : 0 < max x 0
  · rw [if_pos h, if_pos h]
  · rw [if_neg h, if_neg h]
    exact le_antisymm (not_lt.mp h) (le_max_right x 0)

/-! ### The backward pass, unrolled -/

/-- The closed-form backward recurrence: `zChain m inputs outputs d` is
the error signal at boundary `len(layers) - 2 - d`, starting from the
output errors at `d = 0` and stepping once per hidden boundary. -/
def zChain (m : Model) (inputs outputs : Mat) : ℕ → Mat
  | 0 => errorsOf m inputs outputs
  | d + 1 =>
      hadamard
        (matmul (zChain m inputs outputs d)
                (transpose (m.weights.getD (m.layers.length - 2 - d) [])))
        (aPrimes ((activatedOf m inputs).getD (m.layers.length - 3 - d) []))

/-- The initial `z_primes`: a copy of `activated` whose last entry is
replaced by `errors`. -/
def zInit (m : Model) (inputs outputs : Mat) : List Mat :=
  (activatedOf m inputs).set ((activatedOf m inputs).length - 1) (errorsOf m inputs outputs)

/-- The body of iteration `j` of the backward loop of `train`, written
as a named function of the accumulated `z_primes` list. -/
def zStepFn (m : Model) (inputs outputs : Mat) (zp : List Mat) (j : ℕ) : List Mat :=
  zp.set ((activatedOf m inputs).length - 2 - j)
    (hadamard
      (matmul (zp.getD ((activatedOf m inputs).length - 1 - j) [])
              (transpose (m.weights.getD (m.layers.length - 2 - j) [])))
      (aPrimes ((activatedOf m inputs).getD (m.layers.length - 3 - j) [])))

/-- `zPrimesOf` is the fold of `zStepFn` from `zInit`. -/
theorem zPrimesOf_eq_foldl (m : Model) (inputs outputs : Mat) :
    zPrimesOf m inputs outputs
      = (List.range (m.layers.length - 2)).foldl (zStepFn m inputs outputs)
          (zInit m inputs outputs) := rfl

/-- Invariant of the backward loop of `train`: after `n` iterations,
boundaries from `len(layers) - 2 - n` up hold the recurrence values; the
lower boundaries still hold the forward cache entries. -/
theorem zfold_getD (m : Model) (inputs outputs : Mat) (hL : 2 ≤ m.layers.length) :
    ∀ n, n ≤ m.layers.length - 2 →
    ∀ k, k ≤ m.layers.length - 2 →
      (((List.range n).foldl (zStepFn m inputs outputs) (zInit m inputs outputs)).getD k [])
      = if m.layers.length - 2 - n ≤ k
        then zChain m inputs outputs (m.layers.length - 2 - k)
        else (activatedOf m inputs).getD k [] := by
  have hact : (activatedOf m inputs).length = m.layers.length - 1 :=
    activatedOf_length m inputs
  intro n
  induction n with
  | zero =>
    intro _ k hk
    by_cases he : k = m.layers.length - 2
    · subst he
      rw [if_pos (by omega)]
      rw [show m.layers.length - 2 - (m.layers.length - 2) = 0 by omega]
      rw [List.range_zero, List.foldl_nil, zInit,
        show (activatedOf m inputs).length - 1 = m.layers.length - 2 by omega]
      rw [getD_set_eq _ _ _ _ (by omega)]
      rfl
    · rw [if_neg (by omega), List.range_zero, List.foldl_nil, zInit]
      rw [getD_set_ne _ _ _ _ (by omega)]
  | succ n ih =>
    intro hn k hk
    have hfl : ∀ z0 : List Mat,
        ((List.range n).foldl (zStepFn m inputs outputs) z0).length = z0.length :=
      fun z0 => foldl_set_length _ (fun acc j => List.length_set _ _ _) _ z0
    have hread := ih (by omega) ((activatedOf m inputs).length - 1 - n) (by omega)
    rw [if_pos (by omega),
      show m.layers.length - 2 - ((activatedOf m inputs).length - 1 - n) = n by omega]
      at hread
    rw [List.range_succ, List.foldl_append, List.foldl_cons, List.foldl_nil]
    rw [show ∀ zp, zStepFn m inputs outputs zp n
        = zp.set ((activatedOf m inputs).length - 2 - n)
            (hadamard
              (matmul (zp.getD ((activatedOf m inputs).length - 1 - n) [])
                      (transpose (m.weights.getD (m.layers.length - 2 - n) [])))
              (aPrimes ((activatedOf m inputs).getD (m.layers.length - 3 - n) [])))
        from fun zp => rfl]
    rw [hread]
    have hval : hadamard
        (matmul (zChain m inputs outputs n)
                (transpose (m.weights.getD (m.layers.length - 2 - n) [])))
        (aPrimes ((activatedOf m inputs).getD (m.layers.length - 3 - n) []))
      = zChain m inputs outputs (n + 1) := rfl
    rw [hval]
    by_cases hwrite : k = (activatedOf m inputs).length - 2 - n
    · subst hwrite
      rw [getD_set_eq _ _ _ _ (by rw [hfl, zInit, List.length_set]; omega)]
      rw [if_pos (by omega)]
      rw [show m.layers.length - 2 - ((activatedOf m inputs).length - 2 - n) = n + 1
        by omega]
    · rw [getD_set_ne _ _ _ _ hwrite, ih (by omega) k hk]
      by_cases hwin : m.layers.length - 2 - n ≤ k
      · rw [if_pos hwin, if_pos (by omega)]
      · rw [if_neg hwin, if_neg (by omega)]

/-- Entry `k ≤ len(layers) - 2` of the finished `z_primes` equals the
closed-form recurrence value for boundary `k`. -/
theorem zPrimesOf_getD (m : Model) (inputs outputs : Mat) (hL : 2 ≤ m.layers.length)
    {k : ℕ} (hk : k ≤ m.layers.length - 2) :
    (zPrimesOf m inputs outputs).getD k []
      = zChain m inputs outputs (m.layers.length - 2 - k) := by
  rw [zPrimesOf_eq_foldl,
    zfold_getD m inputs outputs hL (m.layers.length - 2) le_rfl k hk, if_pos (by omega)]

/-- Every hidden boundary's cache entry is a `relu` image. -/
theorem activated_hidden_relu (m : Model) (input : Mat) {k : ℕ}
    (hk : k < m.layers.length - 2) :
    ∃ P, (activatedOf m input).getD k [] = relu P := by
  rw [activatedOf_getD m input (by omega)]
  refine ⟨matadd (matmul (poChain m input k) (m.weights.getD k []))
    (tile (m.biases.getD k []) (poChain m input k).length), ?_⟩
  show predictStep m k (poChain m input k) = _
  simp only [predictStep]
  rw [if_pos (show k ≠ m.layers.length - 2 by omega)]

/-- C1. For every network with at least three layer-size entries and
every input/target batch, the backward pass initializes the error
signal at the final boundary `len(layers) - 2` to
`prediction − target`, and each earlier boundary `k` holds
`(errorSignal[k+1] · weight[k+1]^T) ⊙ reluDeriv(cachedActivation[k])`,
the elementwise product with ReLU's derivative evaluated on the cached
forward activation at boundary `k`. -/
theorem claim_C1 (m : Model) (inputs outputs : Mat) (hL : 3 ≤ m.layers.length) :
    (zPrimesOf m inputs outputs).getD (m.layers.length - 2) []
      = errorsOf m inputs outputs ∧
    ∀ k < m.layers.length - 2,
      (zPrimesOf m inputs outputs).getD k []
        = hadamard
            (matmul ((zPrimesOf m inputs outputs).getD (k+1) [])
                    (transpose (m.weights.getD (k+1) [])))
            (reluDeriv ((activatedOf m inputs).getD k [])) := by
  constructor
  · rw [zPrimesOf_getD m inputs outputs (by omega) le_rfl,
      show m.layers.length - 2 - (m.layers.length - 2) = 0 by omega]
    rfl
  · intro k hk
    obtain ⟨P, hP⟩ := activated_hidden_relu m inputs hk
    rw [zPrimesOf_getD m inputs outputs (by omega) (le_of_lt hk),
      zPrimesOf_getD m inputs outputs (by omega) (show k + 1 ≤ m.layers.length - 2 by omega),
      show m.layers.length - 2 - k = (m.layers.length - 3 - k) + 1 by omega]
    show hadamard
        (matmul (zChain m inputs outputs (m.layers.length - 3 - k))
          (transpose (m.weights.getD (m.layers.length - 2 - (m.layers.length - 3 - k)) [])))
        (aPrimes ((activatedOf m inputs).getD (m.layers.length - 3 - (m.layers.length - 3 - k)) []))
      = _
    rw [show m.layers.length - 2 - (m.layers.length - 3 - k) = k + 1 by omega,
      show m.layers.length - 3 - (m.layers.length - 3 - k) = k by omega,
      show m.layers.length - 2 - (k + 1) = m.layers.length - 3 - k by omega,
      hP, aPrimes_relu]

/-- A three-layer network with unit input and output dimensions, used
to instantiate the hypothesis-carrying theorems at concrete data. -/
def demoNet : Model := ⟨[1, 1, 1], [[[1]], [[5]]], [[[0]], [[0]]]⟩

/-- C1, instantiated: the final boundary of `demoNet`'s backward pass
holds the prediction errors. -/
theorem claim_C1_witness :
    (zPrimesOf demoNet [[1]] [[1]]).getD (demoNet.layers.length - 2) []
      = errorsOf demoNet [[1]] [[1]] :=
  (claim_C1 demoNet [[1]] [[1]] (by decide)).1

/-- `deltasOf` as an explicit fold, for index bookkeeping. -/
theorem deltasOf_eq_foldl (m : Model) (inputs outputs : Mat) :
    deltasOf m inputs outputs
      = (List.range (m.layers.length - 3)).foldl
          (fun d j => d.set (j+1)
            (matmul (transpose ((activatedOf m inputs).getD j []))
                    ((zPrimesOf m inputs outputs).getD (j+1) [])))
          (m.weights.set 0
            (matmul (transpose inputs) ((zPrimesOf m inputs outputs).getD 0 []))) := rfl

/-- C2, amended. The gradient for weight matrix `0` is
`inputs^T · errorSignal[0]` (the original input batch, not a cached
activation); for `1 ≤ j ≤ len(layers) - 3` the gradient is
`cachedActivation[j-1]^T · errorSignal[j]`; the entry for the last
weight matrix (index `len(layers) - 2`) is never computed and still
holds the copied weight matrix. -/
theorem claim_C2 (m : Model) (inputs outputs : Mat) (hL : 2 ≤ m.layers.length)
    (hW : m.weights.length = m.layers.length - 1) :
    (deltasOf m inputs outputs).getD 0 []
      = matmul (transpose inputs) ((zPrimesOf m inputs outputs).getD 0 []) ∧
    (∀ j, 1 ≤ j → j ≤ m.layers.length - 3 →
      (deltasOf m inputs outputs).getD j []
        = matmul (transpose ((activatedOf m inputs).getD (j-1) []))
                 ((zPrimesOf m inputs outputs).getD j [])) ∧
    (3 ≤ m.layers.length →
      (deltasOf m inputs outputs).getD (m.layers.length - 2) []
        = m.weights.getD (m.layers.length - 2) []) := by
  have hfold := foldl_set_succ_getD
    (fun j => matmul (transpose ((activatedOf m inputs).getD j []))
              ((zPrimesOf m inputs outputs).getD (j+1) [])) ([] : Mat)
    (fun d j => d.set (j+1)
      (matmul (transpose ((activatedOf m inputs).getD j []))
              ((zPrimesOf m inputs outputs).getD (j+1) [])))
    (fun acc j => rfl) (m.layers.length - 3)
    (m.weights.set 0 (matmul (transpose inputs) ((zPrimesOf m inputs outputs).getD 0 [])))
  refine ⟨?_, ?_, ?_⟩
  · rw [deltasOf_eq_foldl, hfold 0, if_neg (by omega)]
    exact getD_set_eq _ _ _ _ (by omega)
  · intro j h1 h2
    rw [deltasOf_eq_foldl, hfold j, if_pos ⟨h1, h2, by rw [List.length_set]; omega⟩,
      show j - 1 + 1 = j by omega]
  · intro h3
    rw [deltasOf_eq_foldl, hfold (m.layers.length - 2), if_neg (by omega)]
    exact getD_set_ne _ _ _ _ (by omega)

/-- C2, instantiated: `demoNet`'s first weight gradient is computed
from the raw input batch. -/
theorem claim_C2_witness :
    (deltasOf demoNet [[1]] [[1]]).getD 0 []
      = matmul (transpose [[1]]) ((zPrimesOf demoNet [[1]] [[1]]).getD 0 []) :=
  (claim_C2 demoNet [[1]] [[1]] (by decide) (by decide)).1

/-- C2, counterexample to the original claim: for `demoNet` (three
layer-size entries, so weight index `1 = L - 2` is the last), the
`deltas` entry for the last weight matrix is not
`cachedActivation[0]^T · errorSignal[1]` — the loop never computes it. -/
theorem claim_C2_cx :
    ¬ ((deltasOf demoNet [[1]] [[1]]).getD 1 []
        = matmul (transpose ((activatedOf demoNet [[1]]).getD 0 []))
                 ((zPrimesOf demoNet [[1]] [[1]]).getD 1 [])) := by
  norm_num [deltasOf, demoNet, zPrimesOf, activatedOf, predictPair, predictOut, errorsOf,
    predictStep, poChain, matmul, matadd, matsub, hadamard, transpose, col, dot, tile,
    relu, aPrimes, List.range_succ]

/-- The update loop's pair fold splits into independent weight and
bias folds, since neither component reads the other. -/
theorem updateFold_split (m : Model) (inputs outputs : Mat) (lr l : ℚ) :
    ∀ (L : List ℕ) (a b : List Mat),
      L.foldl
        (fun wb j =>
          (wb.1.set j (matsub (wb.1.getD j [])
             (smul lr (matadd
               (smul (1/(inputs.length : ℚ)) ((deltasOf m inputs outputs).getD j []))
               (smul l (wb.1.getD j []))))),
           wb.2.set j (matsub (wb.2.getD j [])
             [(colSum ((zPrimesOf m inputs outputs).getD j [])).map
               (fun x => lr/(inputs.length : ℚ) * x)])))
        (a, b)
      = (L.foldl
           (fun w j => w.set j (matsub (w.getD j [])
             (smul lr (matadd
               (smul (1/(inputs.length : ℚ)) ((deltasOf m inputs outputs).getD j []))
               (smul l (w.getD j []))))))
           a,
         L.foldl
           (fun b j => b.set j (matsub (b.getD j [])
             [(colSum ((zPrimesOf m inputs outputs).getD j [])).map
               (fun x => lr/(inputs.length : ℚ) * x)]))
           b) := by
  intro L
  induction L with
  | nil => intro a b; rfl
  | cons x xs ih => intro a b; exact ih _ _

/-- `updatePair` written as the two independent folds. -/
theorem updatePair_eq (m : Model) (inputs outputs : Mat) (lr l : ℚ) :
    updatePair m inputs outputs lr l
      = ((List.range (m.weights.length - 1)).foldl
           (fun w j => w.set j (matsub (w.getD j [])
             (smul lr (matadd
               (smul (1/(inputs.length : ℚ)) ((deltasOf m inputs outputs).getD j []))
               (smul l (w.getD j []))))))
           m.weights,
         (List.range (m.weights.length - 1)).foldl
           (fun b j => b.set j (matsub (b.getD j [])
             [(colSum ((zPrimesOf m inputs outputs).getD j [])).map
               (fun x => lr/(inputs.length : ℚ) * x)]))
           m.biases) :=
  updateFold_split m inputs outputs lr l (List.range (m.weights.length - 1))
    m.weights m.biases

/-- The weight component of the update loop as a standalone fold. -/
theorem updatedWeights_eq_foldl (m : Model) (inputs outputs : Mat) (lr l : ℚ) :
    updatedWeights m inputs outputs lr l
      = (List.range (m.weights.length - 1)).foldl
          (fun w j => w.set j (matsub (w.getD j [])
            (smul lr (matadd
              (smul (1/(inputs.length : ℚ)) ((deltasOf m inputs outputs).getD j []))
              (smul l (w.getD j []))))))
          m.weights :=
  congrArg Prod.fst (updatePair_eq m inputs outputs lr l)

/-- The bias component of the update loop as a standalone fold. -/
theorem updatedBiases_eq_foldl (m : Model) (inputs outputs : Mat) (lr l : ℚ) :
    updatedBiases m inputs outputs lr l
      = (List.range (m.weights.length - 1)).foldl
          (fun b j => b.set j (matsub (b.getD j [])
            [(colSum ((zPrimesOf m inputs outputs).getD j [])).map
              (fun x => lr/(inputs.length : ℚ) * x)]))
          m.biases :=
  congrArg Prod.snd (updatePair_eq m inputs outputs lr l)

/-- Entrywise description of the weight list after the update loop. -/
theorem updatedWeights_getD (m : Model) (inputs outputs : Mat) (lr l : ℚ) (k : ℕ) :
    (updatedWeights m inputs outputs lr l).getD k []
      = if k < m.weights.length - 1
        then matsub (m.weights.getD k [])
          (smul lr (matadd
            (smul (1/(inputs.length : ℚ)) ((deltasOf m inputs outputs).getD k []))
            (smul l (m.weights.getD k []))))
        else m.weights.getD k [] := by
  rw [updatedWeights_eq_foldl,
    foldl_set_self_getD
      (fun j x => matsub x
        (smul lr (matadd
          (smul (1/(inputs.length : ℚ)) ((deltasOf m inputs outputs).getD j []))
          (smul l x))))
      ([] : Mat) _ (fun acc j => rfl) (m.weights.length - 1) m.weights k]
  by_cases h : k < m.weights.length - 1
  · rw [if_pos ⟨h, by omega⟩, if_pos h]
  · rw [if_neg (fun hc => h hc.1), if_neg h]

/-- Entrywise description of the bias list after the update loop. -/
theorem updatedBiases_getD (m : Model) (inputs outputs : Mat) (lr l : ℚ) (k : ℕ) :
    (updatedBiases m inputs outputs lr l).getD k []
      = if k < m.weights.length - 1 ∧ k < m.biases.length
        then matsub (m.biases.getD k [])
          [(colSum ((zPrimesOf m inputs outputs).getD k [])).map
            (fun x => lr/(inputs.length : ℚ) * x)]
        else m.biases.getD k [] := by
  rw [updatedBiases_eq_foldl,
    foldl_set_self_getD
      (fun j x => matsub x
        [(colSum ((zPrimesOf m inputs outputs).getD j [])).map
          (fun y => lr/(inputs.length : ℚ) * y)])
      ([] : Mat) _ (fun acc j => rfl) (m.weights.length - 1) m.biases k]

/-- C3, amended. The optimizer step of `train` rewrites every weight
matrix except the last as
`w - lr*(1/num_samples*deltas[j] + l*w)` and every bias row except the
last as `b - lr/num_samples*columnSum(z_primes[j])`; the last weight
matrix and bias row are skipped by the loop. -/
theorem claim_C3 (m : Model) (inputs outputs : Mat) (lr l : ℚ)
    (hb : m.biases.length = m.weights.length) :
    ∀ j < m.weights.length - 1,
      (updatedWeights m inputs outputs lr l).getD j []
        = matsub (m.weights.getD j [])
            (smul lr (matadd
              (smul (1/(inputs.length : ℚ)) ((deltasOf m inputs outputs).getD j []))
              (smul l (m.weights.getD j [])))) ∧
      (updatedBiases m inputs outputs lr l).getD j []
        = matsub (m.biases.getD j [])
            [(colSum ((zPrimesOf m inputs outputs).getD j [])).map
              (fun x => lr/(inputs.length : ℚ) * x)] := by
  intro j hj
  constructor
  · rw [updatedWeights_getD, if_pos hj]
  · rw [updatedBiases_getD, if_pos ⟨hj, by omega⟩]

/-- C3, instantiated: the first weight matrix of `demoNet` receives the
gradient-descent update with weight decay. -/
theorem claim_C3_witness :
    (updatedWeights demoNet [[1]] [[1]] (1/100) (1/100000)).getD 0 []
      = matsub (demoNet.weights.getD 0 [])
          (smul (1/100) (matadd
            (smul (1/(([[(1:ℚ)]] : Mat).length : ℚ))
              ((deltasOf demoNet [[1]] [[1]]).getD 0 []))
            (smul (1/100000) (demoNet.weights.getD 0 [])))) :=
  (claim_C3 demoNet [[1]] [[1]] (1/100) (1/100000) (by decide) 0 (by decide)).1

/-- C3, counterexample to the original claim: the last bias row of
`demoNet` is not rewritten by the update formula - the loop never
reaches it. -/
theorem claim_C3_cx :
    ¬ ((updatedBiases demoNet [[1]] [[1]] (1/100) (1/100000)).getD 1 []
        = matsub (demoNet.biases.getD 1 [])
            [(colSum ((zPrimesOf demoNet [[1]] [[1]]).getD 1 [])).map
              (fun x => (1/100)/(([[(1:ℚ)]] : Mat).length : ℚ) * x)]) := by
  norm_num [updatedBiases, updatePair, demoNet, zPrimesOf, activatedOf, predictPair,
    predictOut, errorsOf, predictStep, poChain, matmul, matadd, matsub, hadamard,
    transpose, col, dot, tile, relu, aPrimes, colSum, smul, deltasOf, List.range_succ]

/-- C4. The last weight matrix and the last bias row are left unchanged
by the update step of `train`: the loop runs over
`range(len(weights) - 1)` and never touches the last index. -/
theorem claim_C4 (m : Model) (inputs outputs : Mat) (lr l : ℚ)
    (hb : m.biases.length = m.weights.length) :
    (updatedWeights m inputs outputs lr l).getD (m.weights.length - 1) []
      = m.weights.getD (m.weights.length - 1) [] ∧
    (updatedBiases m inputs outputs lr l).getD (m.biases.length - 1) []
      = m.biases.getD (m.biases.length - 1) [] := by
  constructor
  · rw [updatedWeights_getD, if_neg (by omega)]
  · rw [updatedBiases_getD, if_neg (by omega)]

/-- C4, instantiated: training `demoNet` for one step leaves its second
(last) weight matrix untouched. -/
theorem claim_C4_witness :
    (updatedWeights demoNet [[1]] [[1]] (1/100) (1/100000)).getD
        (demoNet.weights.length - 1) []
      = demoNet.weights.getD (demoNet.weights.length - 1) [] :=
  (claim_C4 demoNet [[1]] [[1]] (1/100) (1/100000) (by decide)).1

/-- Row-level: mapping an `f` with `f 0 = 0` commutes with `getD` at
default `0`, even out of bounds. -/
theorem getD_list_map (f : ℚ → ℚ) (hf : f 0 = 0) (r : List ℚ) (j : ℕ) :
    (r.map f).getD j 0 = f (r.getD j 0) := by
  induction r generalizing j with
  | nil => simp [List.getD, hf]
  | cons a r ih =>
    cases j with
    | zero => rfl
    | succ p => simpa using ih p

/-- Matrix-level: mapping a row transform with `g [] = []` commutes
with `getD` at default `[]`, even out of bounds. -/
theorem getD_mat_map (g : List ℚ → List ℚ) (hg : g [] = []) (A : Mat) (i : ℕ) :
    (A.map g).getD i [] = g (A.getD i []) := by
  induction A generalizing i with
  | nil => simp [List.getD, hg]
  | cons a A ih =>
    cases i with
    | zero => rfl
    | succ p => simpa using ih p

/-- Entry view of an elementwise map with `f 0 = 0`. -/
theorem entry_map (f : ℚ → ℚ) (hf : f 0 = 0) (A : Mat) (i j : ℕ) :
    entry (A.map (List.map f)) i j = f (entry A i j) := by
  rw [entry, entry, getD_mat_map (List.map f) rfl A i, getD_list_map f hf]

/-- C7. On a cached post-activation matrix (an elementwise `relu`
image), the backward pass's `a_primes` transform computed from the
cached activated value yields exactly ReLU's derivative: `1` at every
entry whose cached value is strictly positive and `0` at every other
entry, in particular `0` at entries equal to `0`. -/
theorem claim_C7 (M : Mat) (i j : ℕ) :
    entry (aPrimes (relu M)) i j = if 0 < entry (relu M) i j then 1 else 0 := by
  have h1 : entry (aPrimes (relu M)) i j
      = (fun x : ℚ => if 0 < x then 1 else x) (entry (relu M) i j) := by
    rw [aPrimes, entry_map _ (by norm_num) (relu M) i j]
  have h2 : entry (relu M) i j = max (entry M i j) 0 := by
    rw [relu, entry_map _ (by simp) M i j]
  rw [h1]
  show (if 0 < entry (relu M) i j then (1:ℚ) else entry (relu M) i j)
      = if 0 < entry (relu M) i j then 1 else 0
  by_cases h : 0 < entry (relu M) i j
  · rw [if_pos h, if_pos h]
  · rw [if_neg h, if_neg h]
    rw [h2] at h ⊢
    exact le_antisymm (not_lt.mp h) (le_max_right _ _)

/-- C10. When a cache list is supplied, `predict` appends exactly
`len(layers) - 1` matrices to it, and the last appended matrix is the
prediction `predict` returns. -/
theorem claim_C10 (m : Model) (input : Mat) (hL : 2 ≤ m.layers.length) :
    (activatedOf m input).length = m.layers.length - 1 ∧
    (activatedOf m input).getD (m.layers.length - 2) [] = predictOut m input := by
  refine ⟨activatedOf_length m input, ?_⟩
  rw [activatedOf_getD m input (by omega), predictOut_eq_poChain,
    show m.layers.length - 2 + 1 = m.layers.length - 1 by omega]

/-- C10, instantiated: `demoNet`'s cache ends with the returned
prediction. -/
theorem claim_C10_witness :
    (activatedOf demoNet [[1]]).getD (demoNet.layers.length - 2) []
      = predictOut demoNet [[1]] :=
  (claim_C10 demoNet [[1]] (by decide)).2

/-- C6. For a well-formed network with positive layer sizes and an
input batch of shape `(N, layers[0])`, `predict` returns a matrix of
shape `(N, layers[last])`; the chain starts at the input batch, each
cache entry `i` is `input·weight[i]` plus the broadcast bias row,
activated elementwise with `relu` except at the final transition which
is passed through unactivated; the input batch itself is never
appended (the cache holds exactly the transition outputs). -/
theorem claim_C6 (m : Model) (input : Mat) (N : ℕ)
    (hWF : m.WF) (hpos : ∀ i < m.layers.length, 0 < m.layers.getD i 0)
    (hL : 2 ≤ m.layers.length)
    (hin : isRect input N (m.layers.getD 0 0)) :
    isRect (predictOut m input) N (m.layers.getD (m.layers.length - 1) 0) ∧
    poChain m input 0 = input ∧
    ∀ i < m.layers.length - 1,
      (activatedOf m input).getD i []
        = (if i ≠ m.layers.length - 2
           then relu (matadd (matmul (poChain m input i) (m.weights.getD i []))
                  (tile (m.biases.getD i []) (poChain m input i).length))
           else matadd (matmul (poChain m input i) (m.weights.getD i []))
                  (tile (m.biases.getD i []) (poChain m input i).length)) := by
  refine ⟨?_, rfl, ?_⟩
  · rw [predictOut_eq_poChain]
    exact poChain_isRect m input N hWF hpos hin (m.layers.length - 1) le_rfl
  · intro i hi
    rw [activatedOf_getD m input hi]
    rfl

/-- C6, instantiated: `demoNet` maps a one-sample batch to a
`1 × 1` prediction. -/
theorem claim_C6_witness :
    isRect (predictOut demoNet [[1]]) 1
      (demoNet.layers.getD (demoNet.layers.length - 1) 0) :=
  (claim_C6 demoNet [[1]] 1 (by decide) (by decide) (by decide) (by decide)).1

/-- Bounds-aware `getD` through `List.map`. -/
theorem getD_map_lt {α β : Type} (g : α → β) (l : List α) {i : ℕ} (hi : i < l.length)
    (dα : α) (dβ : β) : (l.map g).getD i dβ = g (l.getD i dα) := by
  rw [List.getD_eq_getElem?_getD, List.getElem?_map, List.getD_eq_getElem?_getD]
  cases h : l[i]? with
  | none =>
    rw [List.getElem?_eq_none_iff] at h
    omega
  | some a => rfl

/-- The dot product of a vector with itself is its sum of squares. -/
theorem dot_self_eq (v : List ℚ) : dot v v = (v.map (fun x => x * x)).sum := by
  rw [dot, List.zipWith_same]

/-- A dot product of a vector with itself is non-negative. -/
theorem dot_self_nonneg (v : List ℚ) : 0 ≤ dot v v := by
  rw [dot_self_eq]
  apply List.sum_nonneg
  intro x hx
  obtain ⟨y, _, rfl⟩ := List.mem_map.mp hx
  exact mul_self_nonneg y

/-- `frob_squared` is non-negative on every matrix: each diagonal entry
of `A^T·A` that `np.trace` sums is a dot product of a column of `A`
with itself. -/
theorem frob_squared_nonneg (A : Mat) : 0 ≤ frob_squared A := by
  rw [frob_squared, trace]
  apply List.sum_nonneg
  intro x hx
  obtain ⟨i, hi, rfl⟩ := List.mem_map.mp hx
  rw [List.mem_range] at hi
  have hlenT : (transpose A).length = (A.headD []).length := by
    rw [transpose, List.length_map, List.length_range]
  have hlen : (matmul (transpose A) A).length = (A.headD []).length := by
    rw [matmul, List.length_map, hlenT]
  rw [hlen] at hi
  have hTi : (transpose A).getD i [] = col A i := by
    rw [transpose, getD_map_range _ _ hi]
  have h1 : (matmul (transpose A) A).getD i []
      = (List.range (A.headD []).length).map (fun j => dot (col A i) (col A j)) := by
    rw [matmul, getD_map_lt _ (transpose A) (by rw [hlenT]; exact hi) [] [], hTi]
  rw [entry, h1, getD_map_range _ _ hi]
  exact dot_self_nonneg _

/-- C9. The objective computed in each training step - the loss term
plus the regularization term - is non-negative for every network
state, batch pair and non-negative weight-decay coefficient. -/
theorem claim_C9 (m : Model) (inputs outputs : Mat) (l : ℚ) (hl : 0 ≤ l) :
    0 ≤ objectiveOf m inputs outputs l := by
  rw [objectiveOf]
  have h1 : 0 ≤ lossTermOf m inputs outputs := by
    rw [lossTermOf, lossOf]
    apply mul_nonneg (one_div_nonneg.mpr (Nat.cast_nonneg _))
    exact mul_nonneg (by norm_num) (sq_nonneg _)
  have h2 : 0 ≤ sOf m := by
    rw [sOf]
    apply List.sum_nonneg
    intro x hx
    obtain ⟨A, _, rfl⟩ := List.mem_map.mp hx
    exact frob_squared_nonneg A
  have h3 : 0 ≤ l/2 := by linarith
  exact add_nonneg h1 (mul_nonneg h3 h2)

/-- C9, instantiated at `demoNet` with the notebook's weight decay. -/
theorem claim_C9_witness : 0 ≤ objectiveOf demoNet [[1]] [[1]] (1/100000) :=
  claim_C9 demoNet [[1]] [[1]] (1/100000) (by norm_num)

/-- A two-layer (no hidden layer) network computing the identity map,
used to evaluate the loss expression at concrete data. -/
def linNet : Model := ⟨[1, 1], [[[1]]], [[[0]]]⟩

/-- C5, refuted by evaluation. For `linNet` on inputs `[[1],[2]]` and
targets `[[0],[1]]` the prediction errors are `[[1],[1]]`; the loss
term computed in `train` is
`1/num_samples * (1/2*(np.dot(errors[:,0], errors[:,0])**2)) = 1`,
because the code squares the dot product again, while the value the
claim specifies, `1/(2*numSamples)` times the sum of squared error
entries, is `1/2`. -/
theorem claim_C5 :
    lossTermOf linNet [[1], [2]] [[0], [1]] = 1 ∧
    1/(2 * (([[(1:ℚ)], [2]] : Mat).length : ℚ))
        * sumSqEntries (errorsOf linNet [[1], [2]] [[0], [1]]) = 1/2 ∧
    lossTermOf linNet [[1], [2]] [[0], [1]]
      ≠ 1/(2 * (([[(1:ℚ)], [2]] : Mat).length : ℚ))
          * sumSqEntries (errorsOf linNet [[1], [2]] [[0], [1]]) := by
  refine ⟨?_, ?_, ?_⟩ <;>
    norm_num [lossTermOf, lossOf, errorsOf, sumSqEntries, linNet, predictOut,
      predictPair, predictStep, poChain, matmul, matadd, matsub, transpose, col, dot,
      tile, relu, List.range_succ, List.replicate_succ, List.zipWith_cons_cons]

/-- Sums over a rectangle of values commute. -/
theorem sum_comm_list {α β : Type} (I : List α) (J : List β) (f : α → β → ℚ) :
    (I.map (fun i => (J.map (f i)).sum)).sum
      = (J.map (fun j => (I.map (fun i => f i j)).sum)).sum := by
  induction I with
  | nil => simp
  | cons i I ih =>
    simp only [List.map_cons, List.sum_cons, ih, ← List.sum_map_add]

/-- Summing `g` of the `getD` entries over the index range of a vector
is summing `g` over the vector. -/
theorem sum_range_map_getD (r : List ℚ) (g : ℚ → ℚ) :
    ((List.range r.length).map (fun i => g (r.getD i 0))).sum = (r.map g).sum := by
  induction r with
  | nil => rfl
  | cons a r ih =>
    rw [List.length_cons, List.range_succ_eq_map, List.map_cons, List.map_map,
      List.sum_cons, List.map_cons, List.sum_cons]
    have : ((List.range r.length).map ((fun i => g ((a :: r).getD i 0)) ∘ Nat.succ))
        = (List.range r.length).map (fun i => g (r.getD i 0)) := by
      apply List.map_congr_left
      intro i _
      rfl
    rw [this, ih]
    rfl

/-- C8. `frob_squared(A) = trace(A^T·A)` is the sum of the squares of
all entries of any rectangular matrix; in particular it is `25` on the
single-row matrix `[[3, 4]]`, so the regularization term scales as the
sum of squared weight entries. -/
theorem claim_C8 :
    (∀ (A : Mat) (p q : ℕ), isRect A p q → frob_squared A = sumSqEntries A) ∧
    frob_squared [[3, 4]] = 25 := by
  constructor
  · intro A p q h
    cases A with
    | nil => rfl
    | cons r0 A' =>
      have hhead : (List.headD (r0 :: A') []).length = q :=
        h.2 r0 (List.mem_cons_self _ _)
      have hlenT : (transpose (r0 :: A')).length = q := by
        rw [transpose, List.length_map, List.length_range, hhead]
      have hlen : (matmul (transpose (r0 :: A')) (r0 :: A')).length = q := by
        rw [matmul, List.length_map, hlenT]
      rw [frob_squared, trace, hlen]
      have hdiag : ∀ i ∈ List.range q,
          entry (matmul (transpose (r0 :: A')) (r0 :: A')) i i
            = ((r0 :: A').map (fun r => (r.getD i 0) * (r.getD i 0))).sum := by
        intro i hi
        rw [List.mem_range] at hi
        have hTi : (transpose (r0 :: A')).getD i [] = col (r0 :: A') i := by
          rw [transpose, getD_map_range _ _ (by rw [hhead]; exact hi)]
        have h1 : (matmul (transpose (r0 :: A')) (r0 :: A')).getD i []
            = (List.range (List.headD (r0 :: A') []).length).map
                (fun j => dot (col (r0 :: A') i) (col (r0 :: A') j)) := by
          rw [matmul, getD_map_lt _ (transpose (r0 :: A')) (by rw [hlenT]; exact hi) [] [],
            hTi]
        rw [entry, h1, getD_map_range _ _ (by rw [hhead]; exact hi), dot_self_eq, col,
          List.map_map]
        rfl
      rw [List.map_congr_left hdiag, sum_comm_list, sumSqEntries]
      apply congrArg
      apply List.map_congr_left
      intro r hr
      rw [← h.2 r hr, sum_range_map_getD r (fun x => x * x)]
  · norm_num [frob_squared, trace, entry, matmul, transpose, col, dot, List.range_succ]

/-- C8, instantiated: the identity on the matrix `[[3, 4]]`, whose
squared Frobenius norm is `9 + 16 = 25`. -/
theorem claim_C8_witness : frob_squared [[3, 4]] = sumSqEntries [[3, 4]] :=
  claim_C8.1 [[3, 4]] 1 2 (by decide)

end MLP
